import Mathlib

/-!
Verification of the document-to-chunk merge and positional-reconstruction
engine of the knowledge-base ingestion repository.

Python strings are modelled as `List Char` (sequences of Unicode code
points).  Each Python function of the core (`fn_convert/merge.py`,
`fn_convert_mistral/merge.py`, `fn_index/chunker.py`,
`fn_convert/html_parser.py`) is translated into an executable Lean
definition of the same name.  The concrete regular expressions appearing
in the source are translated into specialised deterministic matchers; at
every such translation a comment records why the backtracking semantics
of the Python `re` engine collapses to the deterministic code given.
-/

set_option maxRecDepth 4000

abbrev Str := List Char

/-- Python `\s` (str patterns): whitespace.  We model the ASCII whitespace
characters together with the no-break space U+00A0, which are the only
whitespace characters exercised by this code base (the source itself
only ever singles out `\xa0` in addition to ASCII whitespace). -/
def pySpace (c : Char) : Bool :=
  c = ' ' || c = '\t' || c = '\n' || c = '\r' || c = '\x0b' || c = '\x0c' || c = '\xa0'

/-- Python `\w`: word characters, modelled on the ASCII range. -/
def isWordChar (c : Char) : Bool :=
  ('a' ≤ c && c ≤ 'z') || ('A' ≤ c && c ≤ 'Z') || ('0' ≤ c && c ≤ '9') || c = '_'

/-- Python `str.lower()`, modelled on the ASCII range (`Char.toLower`). -/
def pyLower (c : Char) : Char := c.toLower

/-- Model of `re.sub(r"[\s\xa0]+", " ", text)`: every maximal run of whitespace
characters is replaced by a single ASCII space.  The Boolean flag records
whether we are inside a run that has already emitted its space. -/
def collapseWsAux : Bool → Str → Str
  | _, [] => []
  | inRun, c :: t =>
    if pySpace c then
      if inRun then collapseWsAux true t else ' ' :: collapseWsAux true t
    else c :: collapseWsAux false t

def collapseWs (s : Str) : Str := collapseWsAux false s

/-- Python `str.strip()`: remove leading and trailing whitespace. -/
def pyStrip (s : Str) : Str :=
  ((s.dropWhile pySpace).reverse.dropWhile pySpace).reverse

/-- Substring test: `needle in hay` on Python strings. -/
def containsSub (hay needle : Str) : Bool :=
  (List.range (hay.length + 1)).any (fun i => needle.isPrefixOf (hay.drop i))

/-- The literal `text` occurs in `md` at index `i`. -/
def occursAt (md t : Str) (i : Nat) : Bool := t.isPrefixOf (md.drop i)

/-- Scan indices `i, i+1, …` (bounded by `fuel`) for the first index
satisfying `p`; this is how `re.search` tries candidate start positions
left to right. -/
def scanPred (p : Nat → Bool) : Nat → Nat → Option Nat
  | _, 0 => none
  | i, fuel + 1 => if p i then some i else scanPred p (i + 1) fuel

/-- Scan indices `i, i+1, …` (bounded by `fuel`) for the first index at
which `f` produces a value. -/
def scanFirst (f : Nat → Option β) : Nat → Nat → Option (Nat × β)
  | _, 0 => none
  | i, fuel + 1 =>
    match f i with
    | some b => some (i, b)
    | none => scanFirst f (i + 1) fuel

/- ---------------------------------------------------------------------
src/functions/fn_convert/merge.py
--------------------------------------------------------------------- -/

/-- Result of CU image analysis for a single image
(`fn_convert_cu/cu_images.py`, dataclass `ImageAnalysisResult`). -/
structure ImageAnalysisResult where
  filename_stem : Str
  description : Str
  ui_elements : List Str := []
  navigation_path : Str := []
deriving DecidableEq, Repr

/-- Guard of the regex `(?<!\[)<escaped text>(?!\]\()` at start index `i`:
the literal `text` occurs at `i` (the body is `re.escape`d, hence
literal), the character just before `i` is not `[` (negative lookbehind)
and the two characters just after the occurrence are not `](` (negative
lookahead). -/
def linkGuard (md t : Str) (i : Nat) : Bool :=
  occursAt md t i
    && (i == 0 || md[i-1]? != some '[')
    && !((']' :: '(' :: []).isPrefixOf (md.drop (i + t.length)))

/-- Model of `re.search` for the link pattern: the least start index satisfying
`linkGuard` (positions `0 … md.length` are candidates). -/
def firstMatch (md t : Str) : Option Nat :=
  scanPred (linkGuard md t) 0 (md.length + 1)

/-- Model of `recover_links` (fn_convert/merge.py).  For each `(text, url)` pair,
wrap the first guarded occurrence of `text` as `[text](url)`; pairs with
empty text or url, and pairs whose text is not found, leave the document
unchanged. -/
def recover_links (markdown : Str) (link_map : List (Str × Str)) : Str :=
  link_map.foldl
    (fun result tu =>
      if tu.1 = [] ∨ tu.2 = [] then result
      else
        match firstMatch result tu.1 with
        | some i =>
            result.take i
              ++ ('[' :: tu.1) ++ (']' :: '(' :: tu.2) ++ (')' :: [])
              ++ result.drop (i + tu.1.length)
        | none => result)
    markdown

/-- Model of `_normalize_for_match`: collapse whitespace, strip, lowercase, then
delete the emphasis markers `*`, `_` and backtick. -/
def _normalize_for_match (text : Str) : Str :=
  ((pyStrip (collapseWs text)).map pyLower).filter
    (fun c => !(c = '*' || c = '_' || c = Char.ofNat 96))

/-- Model of `str.split()` on whitespace: leading whitespace run (if any) is
dropped, the next maximal non-whitespace run is one word. -/
def takeWord : Str → Str × Str
  | [] => ([], [])
  | c :: t =>
    if pySpace c then ([], c :: t)
    else
      let (w, r) := takeWord t
      (c :: w, r)

def pySplitAux : Nat → Str → List Str
  | 0, _ => []
  | _ + 1, [] => []
  | fuel + 1, c :: t =>
    if pySpace c then pySplitAux fuel t
    else
      let (w, r) := takeWord t
      (c :: w) :: pySplitAux fuel r

def pySplit (s : Str) : List Str := pySplitAux (s.length + 1) s

/-- Match the literal word `w` at the head of `t` under `re.IGNORECASE`
(characters compare equal after lowercasing); returns the remaining
suffix. -/
def matchWordCI : Str → Str → Option Str
  | t, [] => some t
  | [], _ :: _ => none
  | c :: t, w :: ws => if pyLower c = pyLower w then matchWordCI t ws else none

/-- Match the pattern `w₁\s+w₂\s+…\s+wₙ` at the head of `t`.  Because
each word is non-empty and whitespace-free (they come from `str.split`),
the greedy `\s+` of the Python engine is forced to consume exactly the
maximal whitespace run: any shorter run would leave a whitespace
character facing the next word's non-whitespace first character.  Hence
no backtracking is needed and the match is deterministic. -/
def matchSeq : Str → List Str → Option Str
  | t, [] => some t
  | t, [w] => matchWordCI t w
  | t, w :: w' :: ws =>
    match matchWordCI t w with
    | none => none
    | some t1 =>
      match t1 with
      | [] => none
      | c :: t2 =>
        if pySpace c then matchSeq (t2.dropWhile pySpace) (w' :: ws)
        else none

/-- Model of `re.search(pattern, markdown, re.IGNORECASE)` where `pattern` joins
the escaped `words` with `\s+`: the leftmost start index at which
`matchSeq` succeeds, together with the end index of the match. -/
def fuzzySearch (md : Str) (words : List Str) : Option (Nat × Nat) :=
  scanFirst
    (fun i =>
      match matchSeq (md.drop i) words with
      | some rest => some (md.length - rest.length)
      | none => none)
    0 (md.length + 1)

/-- Model of `markdown.find("\n", end_pos)`: index of the first newline at or
after `p`, if any (Python returns `-1`, modelled as `none`). -/
def findNewlineFrom (md : Str) (p : Nat) : Option Nat :=
  scanPred (fun j => md[j]? == some '\n') p (md.length - p)

/-- The trailing-15-words truncation of `_insert_after_text`. -/
def trailWords (ws : List Str) : List Str :=
  if ws.length > 15 then ws.drop (ws.length - 15) else ws

/-- Model of `_insert_after_text` (fn_convert/merge.py). -/
def _insert_after_text (markdown search_text block : Str) : Str :=
  let norm := _normalize_for_match search_text
  -- `if not norm_search or len(norm_search) < 5`: the empty string has
  -- length 0 < 5, so the emptiness test is subsumed by the length test.
  if norm.length < 5 then markdown ++ ('\n' :: '\n' :: []) ++ block
  else
    let words := trailWords (pySplit norm)
    match fuzzySearch markdown words with
    | some (_, endPos) =>
      let insertPos :=
        match findNewlineFrom markdown endPos with
        | some p => p
        | none => markdown.length
      markdown.take insertPos ++ ('\n' :: '\n' :: []) ++ block ++ markdown.drop insertPos
    | none => markdown ++ ('\n' :: '\n' :: []) ++ block

/-- Model of `_format_image_block` (fn_convert/merge.py). -/
def _format_image_block (stem : Str) (analysis : ImageAnalysisResult) : Str :=
  let line1 := "> **[Image: ".toList ++ stem ++ "](images/".toList ++ stem ++ ".png)**".toList
  if analysis.description ≠ [] then
    line1 ++ ('\n' :: []) ++ "> ".toList ++ analysis.description
  else line1

/-- The dict comprehension `{a.filename_stem: a for a in image_analyses}`
followed by `.get(stem)`: a later analysis with the same stem overwrites
an earlier one. -/
def analysisByStem (analyses : List ImageAnalysisResult) (stem : Str) :
    Option ImageAnalysisResult :=
  analyses.foldl (fun acc a => if a.filename_stem = stem then some a else acc) none

/-- Model of `insert_image_blocks` (fn_convert/merge.py): process the image map in
reverse document order; records whose stem has no analysis are skipped. -/
def insert_image_blocks (markdown : Str) (image_map : List (Str × Str))
    (image_analyses : List ImageAnalysisResult) : Str :=
  image_map.reverse.foldl
    (fun result p =>
      match analysisByStem image_analyses p.2 with
      | none => result
      | some analysis =>
          _insert_after_text result p.1 (_format_image_block p.2 analysis))
    markdown

/- ---------------------------------------------------------------------
src/functions/fn_convert_mistral/merge.py — hyperlink recovery
--------------------------------------------------------------------- -/

/-- Model of `re.match(r"\w", text)`: the first character of `text` is a word
character. -/
def startsWordChar : Str → Bool
  | [] => false
  | c :: _ => isWordChar c

/-- Model of `re.search(r"\w$", text)`: a word character at the end of the string,
or (because `$` also matches just before a final newline) a word
character directly before a terminal `\n`. -/
def endsWordChar (t : Str) : Bool :=
  match t.reverse with
  | [] => false
  | c :: r =>
    isWordChar c
      || (c = '\n' && (match r with | d :: _ => isWordChar d | [] => false))

/-- Model of `\b` of the Python engine at position `p` of `md`: the word-character
status differs between the character before `p` and the character at `p`
(positions outside the string count as non-word). -/
def wordBoundary (md : Str) (p : Nat) : Bool :=
  (decide (0 < p) && (md[p-1]?.elim false isWordChar))
    != (md[p]?.elim false isWordChar)

/-- Guard of the mistral-variant pattern
`(?<!\[){prefix}{escaped text}{suffix}(?!\]\()` at start index `i`,
where `prefix`/`suffix` are `\b` exactly when the link text starts/ends
with a word character. -/
def mistralLinkGuard (md t : Str) (i : Nat) : Bool :=
  occursAt md t i
    && (i == 0 || md[i-1]? != some '[')
    && (!startsWordChar t || wordBoundary md i)
    && (!endsWordChar t || wordBoundary md (i + t.length))
    && !((']' :: '(' :: []).isPrefixOf (md.drop (i + t.length)))

/-- Model of `re.search` for the mistral link pattern. -/
def mistralFirstMatch (md t : Str) : Option Nat :=
  scanPred (mistralLinkGuard md t) 0 (md.length + 1)

/-- Model of `recover_links` (fn_convert_mistral/merge.py): same wrapping loop as
the fn_convert variant, with the word-boundary anchors added. -/
def mistral_recover_links (markdown : Str) (link_map : List (Str × Str)) : Str :=
  link_map.foldl
    (fun result tu =>
      if tu.1 = [] ∨ tu.2 = [] then result
      else
        match mistralFirstMatch result tu.1 with
        | some i =>
            result.take i
              ++ ('[' :: tu.1) ++ (']' :: '(' :: tu.2) ++ (')' :: [])
              ++ result.drop (i + tu.1.length)
        | none => result)
    markdown

/- ---------------------------------------------------------------------
src/functions/fn_index/chunker.py
--------------------------------------------------------------------- -/

/-- A single chunk of article content (dataclass `Chunk`). -/
structure Chunk where
  content : Str
  title : Str
  section_header : Str
  image_refs : List Str := []
deriving DecidableEq, Repr

/-- Split off the run of characters before the first occurrence of
`stop`, also consuming `stop` itself; `none` when `stop` is absent. -/
def takeUntil (stop : Char) : Str → Option (Str × Str)
  | [] => none
  | c :: t =>
    if c = stop then some ([], t)
    else (takeUntil stop t).map (fun p => (c :: p.1, p.2))

/-- Match `_IMAGE_REF_RE = \[Image:\s*([^\]]+)\]\(images/([^)]+\.png)\)`
at the head of `s`; returns `(group 2, rest of the string)`.

Determinization of the Python engine on this pattern: `\s*([^\]]+)\]`
accepts exactly a non-empty `]`-free run followed by `]` (greedy `\s*`
and `[^\]]+` both stop at the first `]`, and the run splits as
whitespace-prefix + non-empty remainder whenever it is non-empty — when
the run is all whitespace the engine backtracks `\s*` by one character
so that `[^\]]+` is non-empty).  `([^)]+\.png)\)` accepts exactly the
run up to the first `)` provided that run is at least 5 characters long
and ends in `.png`: the `)`-free run is forced to end at the first `)`,
and `\.png` must sit directly before it. -/
def matchImageRefAt (s : Str) : Option (Str × Str) :=
  if ("[Image:").toList.isPrefixOf s then
    match takeUntil ']' (s.drop 7) with
    | none => none
    | some (g1, s2) =>
      if g1 = [] then none
      else
        if ("(images/").toList.isPrefixOf s2 then
          match takeUntil ')' (s2.drop 8) with
          | none => none
          | some (g2, s4) =>
            if 5 ≤ g2.length ∧ ".png".toList.isSuffixOf g2 then some (g2, s4)
            else none
        else none
  else none

/-- Model of `_IMAGE_REF_RE.finditer(content)`, collecting `group(2)` of each
(non-overlapping, leftmost-first) match.  On failure the scan advances
one character; on success it continues after the match.  The fuel is the
string length plus one, which suffices because every step consumes at
least one character. -/
def imageRefsAux : Nat → Str → List Str
  | 0, _ => []
  | _ + 1, [] => []
  | fuel + 1, c :: t =>
    match matchImageRefAt (c :: t) with
    | some (g2, rest) => g2 :: imageRefsAux fuel rest
    | none => imageRefsAux fuel t

def imageRefs (s : Str) : List Str := imageRefsAux (s.length + 1) s

/-- Model of `_build_chunk` (fn_index/chunker.py). -/
def _build_chunk (content title section_header : Str) : Chunk :=
  { content := content
    title := title
    section_header := section_header
    image_refs := imageRefs content }

/-- Model of `^` of a `re.MULTILINE` pattern holds at `p`: start of string or just
after a newline. -/
def lineStart (md : Str) (p : Nat) : Bool :=
  p == 0 || md[p-1]? == some '\n'

/-- Search downward from `k` for the largest `k' ≤ k`, `k' ≥ 1`, such
that `t` has a character at index `k'` and it is not a newline. -/
def findKDown (t : Str) : Nat → Option Nat
  | 0 => none
  | k + 1 =>
    match t[k+1]? with
    | some c => if c ≠ '\n' then some (k + 1) else findKDown t k
    | none => findKDown t k

/-- Match `_HEADER_RE = ^(#{1,3})\s+(.+)$` (MULTILINE) at the head of
`t` (the caller checks the `^` anchor); returns
`(level, group 2, length of the whole match)`.

Determinization: `#{1,3}` must take all leading `#` characters (if a
fourth is present, or if none is, the following `\s+` fails, since `#`
is not whitespace); so the match requires between 1 and 3 leading `#`.
`\s+(.+)$` takes the largest `k ≥ 1` within the maximal whitespace run
after the hashes such that a non-newline character follows (`.` cannot
match a newline; `$` then always holds at the end of the `.+` run, which
extends to the next newline or the end of the string).  Note `\s`
matches `\n`, so the whitespace run — and hence the whole match — may
span line breaks; this mirrors the Python regex exactly. -/
def headerMatchCore (t : Str) : Option (Nat × Str × Nat) :=
  let h := (t.takeWhile (fun c => c = '#')).length
  if 1 ≤ h ∧ h ≤ 3 then
    let t1 := t.drop h
    let m := (t1.takeWhile pySpace).length
    match findKDown t1 m with
    | some k =>
      let g2 := (t1.drop k).takeWhile (fun c => c ≠ '\n')
      some (h, g2, h + k + g2.length)
    | none => none
  else none

/-- Model of `_HEADER_RE.finditer(markdown)`: non-overlapping matches, each
starting at a line start, the next scan resuming at the previous match
end.  Entries are `(start index, level, group 2, end index)`. -/
def findHeadersAux (md : Str) (s : Nat) : Nat → List (Nat × Nat × Str × Nat)
  | 0 => []
  | fuel + 1 =>
    match scanFirst
        (fun p => if lineStart md p then headerMatchCore (md.drop p) else none)
        s (md.length + 1 - s) with
    | none => []
    | some (p, (h, g2, len)) => (p, h, g2, p + len) :: findHeadersAux md (p + len) fuel

def findHeaders (md : Str) : List (Nat × Nat × Str × Nat) :=
  findHeadersAux md 0 (md.length + 1)

/-- The `(level, header_text, content)` section triples of
`chunk_article`: each header section spans from its own start to the
next header's start (or the end of the document), stripped. -/
def hdrSpans (md : Str) : List (Nat × Nat × Str) → List (Nat × Str × Str)
  | [] => []
  | [(st, lv, tx)] => [(lv, tx, pyStrip (md.drop st))]
  | (st, lv, tx) :: (st2, lv2, tx2) :: rest =>
    (lv, tx, pyStrip ((md.drop st).take (st2 - st)))
      :: hdrSpans md ((st2, lv2, tx2) :: rest)

/-- The chunk-building loop of `chunk_article`, threading the current H2
context. -/
def buildChunks (title : Str) : Str → List (Nat × Str × Str) → List Chunk
  | _, [] => []
  | cur_h2, (level, header_text, content) :: rest =>
    if content = [] then buildChunks title cur_h2 rest
    else
      let cur_h2' := if level = 2 then header_text else cur_h2
      let header_text' :=
        if level = 3 ∧ cur_h2 ≠ [] ∧ containsSub header_text cur_h2 = false then
          cur_h2 ++ " > ".toList ++ header_text
        else header_text
      let section_header := if 2 ≤ level then header_text' else []
      _build_chunk content title section_header
        :: buildChunks title cur_h2' rest

/-- Model of `chunk_article` (fn_index/chunker.py). -/
def chunk_article (markdown : Str) : List Chunk :=
  if pyStrip markdown = [] then []
  else
    -- headers as collected by the Python loop: (start, level, stripped text)
    let headers := (findHeaders markdown).map (fun r => (r.1, r.2.1, pyStrip r.2.2.1))
    let article_title :=
      match headers.find? (fun r => r.2.1 = 1) with
      | some r => r.2.2
      | none => []
    match headers with
    | [] => [_build_chunk (pyStrip markdown) article_title []]
    | first :: _ =>
      let preamble := pyStrip (markdown.take first.1)
      let sections :=
        (if preamble ≠ [] then [(0, ([] : Str), preamble)] else [])
          ++ hdrSpans markdown headers
      buildChunks article_title [] sections

/- ---------------------------------------------------------------------
src/functions/fn_convert_mistral/merge.py — description cleanup and
article assembly
--------------------------------------------------------------------- -/

/-- Model of `str.rstrip(".")`: remove trailing dots. -/
def rstripDot (s : Str) : Str := (s.reverse.dropWhile (fun c => c = '.')).reverse

/-- Model of `str.lower()` on a whole string. -/
def lowerStr (s : Str) : Str := s.map pyLower

/-- Model of `str.split("\n")`: split at every newline, keeping empty parts. -/
def splitOnNl : Str → List Str
  | [] => [[]]
  | c :: t =>
    if c = '\n' then [] :: splitOnNl t
    else
      match splitOnNl t with
      | h :: r => (c :: h) :: r
      | [] => [c :: []]

/-- Model of `"\n".join(lines)`. -/
def joinNl (lines : List Str) : Str := List.intercalate ('\n' :: []) lines

/-- Model of `pathlib.Path(f).stem`: the final path component without its last
extension; a dot at the start or the very end of the name does not count
as an extension separator. -/
def pathStem (f : Str) : Str :=
  let name := ((f.reverse.takeWhile (fun c => c ≠ '/')).reverse)
  match (name.reverse.findIdx? (fun c => c = '.')) with
  | none => name
  | some j =>
    let i := name.length - 1 - j
    if i = 0 ∨ i = name.length - 1 then name else name.take i

/-- Model of `str.replace(old, new)` (all occurrences, left to right); `old` is
always non-empty at the call sites (the `[[IMG:…]]` markers). -/
def replaceAllAux (old new : Str) : Nat → Str → Str
  | 0, s => s
  | _ + 1, [] => []
  | fuel + 1, c :: t =>
    if old.isPrefixOf (c :: t) then new ++ replaceAllAux old new fuel ((c :: t).drop old.length)
    else c :: replaceAllAux old new fuel t

def pyReplace (s old new : Str) : Str :=
  if old = [] then s else replaceAllAux old new (s.length + 1) s

/-- Python `dict.get` over an association list with unique keys. -/
def lookupAssoc (d : List (Str × Str)) (k : Str) : Option Str :=
  (d.find? (fun p => p.1 = k)).map (fun p => p.2)

/-- Match `_SECTION_RE` at the head of `t` (with `atStart` telling
whether we sit at the very start of the string, where the `^` branch of
`(?:^|\n)` applies; otherwise the match consumes a leading newline).
Returns `(rest after the match, group 1, group 2)`.

Determinization of the Python engine: after the anchor, the greedy `\s*`
is forced maximal because every continuation (`\d`, `**`, or a keyword
letter) starts with a non-whitespace character; `\d+` is forced maximal
because `.` follows; the optional `(?:\d+\.\s*)?` participates exactly
when digits followed by a dot are present, since otherwise the
alternation would face a digit and fail either way; in the alternation,
`\*\*([^*]+)\*\*` is tried first and its `[^*]+` is forced to stop at
the first `*`; the keywords are matched case-insensitively; the `\s*`
before `:` and the trailing `[ \t]*` are again forced/greedy-maximal. -/
def matchSecAt (t : Str) (atStart : Bool) : Option (Str × Option Str × Option Str) :=
  let t0? : Option Str :=
    if atStart then some t
    else match t with
         | '\n' :: r => some r
         | _ => none
  match t0? with
  | none => none
  | some t0 =>
    let t1 := t0.dropWhile pySpace
    let d := t1.takeWhile (fun c => c.isDigit)
    let t2 :=
      if d ≠ [] ∧ (t1.drop d.length).head? = some '.' then
        (t1.drop (d.length + 1)).dropWhile pySpace
      else t1
    let branch : Option (Str × Option Str × Option Str) :=
      if ('*' :: '*' :: []).isPrefixOf t2 then
        match takeUntil '*' (t2.drop 2) with
        | some (g1, r) =>
          if g1 ≠ [] ∧ r.head? = some '*' then some (r.drop 1, some g1, none)
          else none
        | none => none
      else
        let kw := ["Description".toList, "UIElements".toList, "NavigationPath".toList]
        match kw.find? (fun w => (lowerStr w).isPrefixOf (lowerStr t2)) with
        | some w => some (t2.drop w.length, none, some (t2.take w.length))
        | none => none
    match branch with
    | none => none
    | some (t5, g1, g2) =>
      let t6 := t5.dropWhile pySpace
      match t6 with
      | ':' :: t7 => some (t7.dropWhile (fun c => c = ' ' ∨ c = '\t'), g1, g2)
      | _ => none

/-- One step of `_SECTION_RE` scanning: the leftmost match at or after
the head of `s`.  Candidate start positions are index 0 (where the `^`
branch applies when `atStart`, and the newline branch applies when the
first character is a newline) and every newline position.  Returns
`(segment before the match, group 1, group 2, rest after the match)`. -/
def findSecMatch (s : Str) (atStart : Bool) :
    Option (Str × Option Str × Option Str × Str) :=
  match scanFirst
      (fun j =>
        if (j == 0 && atStart) || s[j]? == some '\n' then
          matchSecAt (s.drop j) (j == 0 && atStart)
        else none)
      0 (s.length + 1) with
  | some (j, (rest, g1, g2)) => some (s.take j, g1, g2, rest)
  | none => none

/-- Model of `_SECTION_RE.split(raw)` in structured form: the result
`(seg₀, [(g1₁, g2₁, seg₁), …, (g1ₖ, g2ₖ, segₖ)])` stands for the Python
list `[seg₀, g1₁, g2₁, seg₁, …, g1ₖ, g2ₖ, segₖ]` (length `1 + 3k`).
Successive matches are non-overlapping and leftmost; each step consumes
at least one character, so the length-based fuel suffices. -/
def secSplitCore : Nat → Str → Bool → (Str × List (Option Str × Option Str × Str))
  | 0, s, _ => (s, [])
  | fuel + 1, s, atStart =>
    match findSecMatch s atStart with
    | some (seg, g1, g2, rest) =>
      let (seg', tris) := secSplitCore fuel rest false
      (seg, (g1, g2, seg') :: tris)
    | none => (s, [])

def secSplit (raw : Str) : Str × List (Option Str × Option Str × Str) :=
  secSplitCore (raw.length + 1) raw true

/-- The section-collection loop of `_clean_description`: for each match
triple, `header = (parts[i] or parts[i+1] or "").strip().lower()` and
`body = parts[i+2].strip().rstrip(".")`; empty headers are dropped and a
later entry with the same header overwrites an earlier one
(`sections[header] = body`), which the fold reproduces by keeping the
last hit. -/
def sectionsGet (tris : List (Option Str × Option Str × Str)) (key : Str) : Option Str :=
  tris.foldl
    (fun acc tri =>
      let header := lowerStr (pyStrip ((tri.1.getD (tri.2.1.getD []))))
      if header ≠ [] ∧ header = key then some (rstripDot (pyStrip tri.2.2)) else acc)
    none

/-- Model of `_clean_description` (fn_convert_mistral/merge.py). -/
def _clean_description (raw : Str) : Str :=
  let (_, tris) := secSplit raw
  -- `len(parts) < 4` ↔ no match at all (parts length is `1 + 3k`)
  if tris.length = 0 then pyStrip raw
  else
    let description := pyStrip ((sectionsGet tris ("description").toList).getD [])
    if description = [] then pyStrip raw
    else
      let ui := pyStrip ((sectionsGet tris ("uielements").toList).getD [])
      let nav := pyStrip ((sectionsGet tris ("navigationpath").toList).getD [])
      let lines := [description]
      let lines :=
        if ui ≠ [] ∧ ¬ (lowerStr ui = "none".toList ∨ lowerStr ui = "n/a".toList ∨ lowerStr ui = []) then
          lines ++ ["**UI Elements**: ".toList ++ ui]
        else lines
      let lines :=
        if nav ≠ [] ∧ ¬ (lowerStr nav = "none".toList ∨ lowerStr nav = "n/a".toList ∨ lowerStr nav = []) then
          lines ++ ["**Navigation Path**: ".toList ++ nav]
        else lines
      joinNl lines

/-- The image block built by `merge_article` for one source filename. -/
def mistralImageBlock (source_filename : Str) (descriptions : List (Str × Str)) : Str :=
  let stem := pathStem source_filename
  let raw := (lookupAssoc descriptions source_filename).getD ("No description available.").toList
  let description := _clean_description raw
  let quoted := joinNl ((splitOnNl description).map (fun l => ("> ").toList ++ l))
  ("> **[Image: ").toList ++ stem ++ "](images/".toList ++ stem ++ ".png)**\n".toList ++ quoted

/-- The article-string computation of `merge_article`
(fn_convert_mistral/merge.py): replace every `[[IMG:<filename>]]` marker
with its image block, then recover hyperlinks when a link map is given.
The filesystem side effects of `merge_article` (directory creation,
image copies, writing `article.md`) are elided; this is the value the
function writes to `article.md`. -/
def mergeArticleText (ocr_markdown : Str) (source_filenames : List Str)
    (descriptions : List (Str × Str)) (link_map : List (Str × Str)) : Str :=
  let article :=
    source_filenames.foldl
      (fun article f =>
        pyReplace article ("[[IMG:".toList ++ f ++ "]]".toList)
          (mistralImageBlock f descriptions))
      ocr_markdown
  if link_map ≠ [] then mistral_recover_links article link_map else article

/- ---------------------------------------------------------------------
src/functions/fn_convert/html_parser.py
--------------------------------------------------------------------- -/

/-- The parsed HTML DOM (`BeautifulSoup` is the external parser; the
tree it produces is modelled directly).  A `tag` carries its name, its
attributes and its children in document order; a `text` node is a
`NavigableString`.  The soup's document root is a tag named
`[document]`.  Multi-valued attributes (`class`) are modelled as their
flat string value; the `class_` lambdas of the source do substring
tests, which coincide on the flat value. -/
inductive Node where
  | tag : Str → List (Str × Str) → List Node → Node
  | text : Str → Node

/-- Model of `element.get(key, "")`. -/
def attrOf (attrs : List (Str × Str)) (k : Str) : Str :=
  ((attrs.find? (fun p => p.1 = k)).map (fun p => p.2)).getD []

/-- Model of `_normalize` (html_parser.py): collapse whitespace and strip. -/
def htmlNormalize (s : Str) : Str := pyStrip (collapseWs s)

mutual
/-- Model of `element.get_text()`: concatenation of all descendant strings. -/
def getText : Node → Str
  | .text s => s
  | .tag _ _ cs => getTextList cs
def getTextList : List Node → Str
  | [] => []
  | n :: ns => getText n ++ getTextList ns
end

mutual
/-- Model of `element.find_all("img")` (descendants in document order), keeping
each img's attributes. -/
def imgAttrsIn : Node → List (List (Str × Str))
  | .text _ => []
  | .tag _ _ cs => imgAttrsInList cs
def imgAttrsInList : List Node → List (List (Str × Str))
  | [] => []
  | n :: ns =>
    (match n with
     | .tag nm attrs _ => if nm = "img".toList then [attrs] else []
     | .text _ => [])
      ++ imgAttrsIn n ++ imgAttrsInList ns
end

/-- Model of `str.replace(old, "", 1)`: delete the leftmost occurrence of `old`
(identity when `old` is empty or absent). -/
def removeFirst (s old : Str) : Str :=
  if old = [] then s
  else
    match scanPred (occursAt s old) 0 (s.length + 1) with
    | some i => s.take i ++ s.drop (i + old.length)
    | none => s

/-- Model of `_is_image_only` (html_parser.py): a tag whose normalized text,
after removing (once each) the stripped alt text of every descendant
img, is shorter than 5 characters. -/
def _is_image_only : Node → Bool
  | .text _ => false
  | .tag nm attrs cs =>
    let text0 := htmlNormalize (getText (.tag nm attrs cs))
    let text :=
      (imgAttrsIn (.tag nm attrs cs)).foldl
        (fun tx a =>
          let alt := attrOf a ("alt").toList
          if alt ≠ [] then pyStrip (removeFirst tx (pyStrip alt)) else tx)
        text0
    text.length < 5

/-- An ancestor context of an element: the ancestor node itself together
with the ancestor's previous siblings, nearest first (the iteration
order of `previous_siblings`). -/
structure Ctx where
  node : Node
  prevSibs : List Node

/-- The sibling scan shared by strategy 2 and the body-level fallback of
`_find_preceding_text`: skip strings and image-only tags, return the
trailing 200 characters of the first sibling text longer than 10
characters. -/
def scanSibs : List Node → Option Str
  | [] => none
  | sib :: rest =>
    match sib with
    | .text _ => scanSibs rest
    | .tag _ _ _ =>
      if _is_image_only sib then scanSibs rest
      else
        let tx := htmlNormalize (getText sib)
        if 10 < tx.length then some (tx.drop (tx.length - 200)) else scanSibs rest

/-- Strategy 2 of `_find_preceding_text`: walk up the ancestors
(innermost first), scanning each level's previous siblings; stop (fall
through to the body-level fallback) on reaching `body`, `html` or the
document root. -/
def walkUp : List Ctx → Option Str
  | [] => none
  | ctx :: rest =>
    match ctx.node with
    | .text _ => walkUp rest
    | .tag nm _ _ =>
      if nm = "body".toList ∨ nm = "html".toList ∨ nm = "[document]".toList then none
      else
        match scanSibs ctx.prevSibs with
        | some t => some t
        | none => walkUp rest

/-- Model of `find_parent("li", class_=lambda c: c and "step" in c)` test. -/
def isStepLi (ctx : Ctx) : Bool :=
  match ctx.node with
  | .tag nm attrs _ =>
    nm = "li".toList
      && (attrOf attrs ("class").toList) ≠ []
      && containsSub (attrOf attrs ("class").toList) ("step").toList
  | .text _ => false

mutual
/-- Model of `step_li.find("span", class_=lambda c: c and "cmd" in c)`: first
descendant span (preorder) whose class contains `cmd`. -/
def findCmdSpan : Node → Option Node
  | .text _ => none
  | .tag _ _ cs => findCmdSpanList cs
def findCmdSpanList : List Node → Option Node
  | [] => none
  | n :: ns =>
    match
      (match n with
       | .tag nm attrs _ =>
         if nm = "span".toList
             ∧ (attrOf attrs ("class").toList) ≠ []
             ∧ containsSub (attrOf attrs ("class").toList) ("cmd").toList then
           some n
         else findCmdSpan n
       | .text _ => none) with
    | some r => some r
    | none => findCmdSpanList ns
end

/-- Model of `_find_preceding_text` (html_parser.py), taking the img's ancestor
chain (innermost first).  Strategy 1: the command text of an enclosing
DITA step; if the step exists but has no command span, the code falls
through to strategy 2.  Strategy 2: walk up and scan previous siblings.
Fallback: scan the previous siblings of the img's direct parent. -/
def _find_preceding_text (chain : List Ctx) : Str :=
  let strat1 :=
    (chain.find? isStepLi).bind
      (fun ctx => (findCmdSpan ctx.node).map (fun cmd => htmlNormalize (getText cmd)))
  match strat1 with
  | some t => t
  | none =>
    match walkUp chain with
    | some t => t
    | none =>
      match chain with
      | ctx :: _ => (scanSibs ctx.prevSibs).getD []
      | [] => []

mutual
/-- Model of `soup.find_all("img")` with, for every img, its ancestor chain
(innermost first), each ancestor paired with that ancestor's own
previous siblings (nearest first, the iteration order of
`previous_siblings`); imgs appear in document order.  `chain` is the
ancestor chain of the node itself and `selfPrev` the node's own
previous siblings (needed to build its children's chain). -/
def collectImgs (chain : List Ctx) (selfPrev : List Node) :
    Node → List (List (Str × Str) × List Ctx)
  | .text _ => []
  | .tag nm attrs cs =>
    (if nm = "img".toList then [(attrs, chain)] else [])
      ++ collectImgsList ({ node := .tag nm attrs cs, prevSibs := selfPrev } :: chain) [] cs
def collectImgsList (childChain : List Ctx) (prevRev : List Node) :
    List Node → List (List (Str × Str) × List Ctx)
  | [] => []
  | c :: rest =>
    collectImgs childChain prevRev c
      ++ collectImgsList childChain (c :: prevRev) rest
end

/-- Model of `extract_image_map` (html_parser.py): one `(preceding_text, stem)`
record per img with a non-empty `src` and a non-empty found preceding
text; imgs with no preceding text are only logged and produce no
record. -/
def extract_image_map (doc : Node) : List (Str × Str) :=
  (collectImgs [] [] doc).filterMap
    (fun p =>
      if attrOf p.1 ("src").toList = [] then none
      else if _find_preceding_text p.2 ≠ [] then
        some (_find_preceding_text p.2, pathStem (attrOf p.1 ("src").toList))
      else none)

/-- The stems of all imgs with a non-empty `src`, in document order. -/
def imgStems (doc : Node) : List Str :=
  (collectImgs [] [] doc).filterMap
    (fun p =>
      if attrOf p.1 ("src").toList = [] then none
      else some (pathStem (attrOf p.1 ("src").toList)))

/-- The wrapped match does not begin mid-word: start of string, or the
preceding character is not a word character. -/
def notMidWordStart (md : Str) (i : Nat) : Bool :=
  i == 0 || !(isWordChar (md.getD (i-1) ' '))

/-- The wrapped match does not end mid-word: the character at `p` (the
first position after the match), if any, is not a word character. -/
def notMidWordEnd (md : Str) (p : Nat) : Bool :=
  !(isWordChar (md.getD p ' '))

/-- A document whose only image (with a non-empty `src`) sits directly
under `body` with nothing before it: no preceding text can be found. -/
def htmlDocNoAnchor : Node :=
  .tag ("[document]").toList []
    [.tag ("body").toList []
      [.tag ("img").toList [("src".toList, "pic.png".toList)] []]]

/-- A document whose image (inside a link) is preceded by a paragraph
of text, so an anchor is found. -/
def htmlDocAnchored : Node :=
  .tag ("[document]").toList []
    [.tag ("body").toList []
      [.tag ("p").toList [] [.text ("some long text here ok").toList],
       .tag ("a").toList []
         [.tag ("img").toList [("src".toList, "shot.png".toList)] []]]]

/- ---------------------------------------------------------------------
General lemmas about the scanners
--------------------------------------------------------------------- -/

lemma scanPred_spec {p : Nat → Bool} :
    ∀ {fuel s i : Nat}, scanPred p s fuel = some i →
      p i = true ∧ s ≤ i ∧ ∀ j, s ≤ j → j < i → p j = false := by
  intro fuel
  induction fuel with
  | zero => intro s i h; simp [scanPred] at h
  | succ n ih =>
    intro s i h
    by_cases hp : p s
    · simp [scanPred, hp] at h
      subst h
      exact ⟨hp, Nat.le_refl _, fun j h1 h2 => absurd (Nat.lt_of_le_of_lt h1 h2) (Nat.lt_irrefl _)⟩
    · simp [scanPred, hp] at h
      obtain ⟨hpi, hsi, hmin⟩ := ih h
      refine ⟨hpi, Nat.le_trans (Nat.le_succ s) hsi, fun j h1 h2 => ?_⟩
      rcases Nat.eq_or_lt_of_le h1 with h1' | h1'
      · subst h1'; exact Bool.not_eq_true _ ▸ (by simpa using hp)
      · exact hmin j h1' h2

lemma scanPred_none {p : Nat → Bool} :
    ∀ {fuel s : Nat}, scanPred p s fuel = none →
      ∀ j, s ≤ j → j < s + fuel → p j = false := by
  intro fuel
  induction fuel with
  | zero => intro s _ j h1 h2; omega
  | succ n ih =>
    intro s h j h1 h2
    by_cases hp : p s
    · simp [scanPred, hp] at h
    · simp [scanPred, hp] at h
      rcases Nat.eq_or_lt_of_le h1 with h1' | h1'
      · subst h1'; simpa using hp
      · exact ih h j h1' (by omega)

lemma scanFirst_spec {f : Nat → Option β} :
    ∀ {fuel s i : Nat} {b : β}, scanFirst f s fuel = some (i, b) →
      f i = some b ∧ s ≤ i ∧ ∀ j, s ≤ j → j < i → f j = none := by
  intro fuel
  induction fuel with
  | zero => intro s i b h; simp [scanFirst] at h
  | succ n ih =>
    intro s i b h
    cases hf : f s with
    | some b' =>
      rw [scanFirst, hf] at h
      obtain ⟨h1, h2⟩ := Prod.mk.injEq .. ▸ Option.some.injEq .. ▸ h
      simp at h
      obtain ⟨h1, h2⟩ := h
      subst h1; subst h2
      exact ⟨hf, Nat.le_refl _, fun j hj1 hj2 => absurd (Nat.lt_of_le_of_lt hj1 hj2) (Nat.lt_irrefl _)⟩
    | none =>
      rw [scanFirst, hf] at h
      obtain ⟨h1, h2, h3⟩ := ih h
      refine ⟨h1, Nat.le_trans (Nat.le_succ s) h2, fun j hj1 hj2 => ?_⟩
      rcases Nat.eq_or_lt_of_le hj1 with hj' | hj'
      · subst hj'; exact hf
      · exact h3 j hj' hj2

lemma scanFirst_none {f : Nat → Option β} :
    ∀ {fuel s : Nat}, scanFirst f s fuel = none →
      ∀ j, s ≤ j → j < s + fuel → f j = none := by
  intro fuel
  induction fuel with
  | zero => intro s _ j h1 h2; omega
  | succ n ih =>
    intro s h j h1 h2
    cases hf : f s with
    | some b => rw [scanFirst, hf] at h; exact absurd h (by simp)
    | none =>
      rw [scanFirst, hf] at h
      rcases Nat.eq_or_lt_of_le h1 with h1' | h1'
      · subst h1'; exact hf
      · exact ih h j h1' (by omega)

lemma occursAt_decomp {md t : Str} {i : Nat} (h : occursAt md t i = true) :
    md = md.take i ++ (t ++ md.drop (i + t.length)) := by
  have hp : t <+: md.drop i := List.isPrefixOf_iff_prefix.mp h
  have h2 : t ++ (md.drop i).drop t.length = md.drop i := List.prefix_iff_eq_append.mp hp
  have h3 : (md.drop i).drop t.length = md.drop (i + t.length) := List.drop_drop ..
  calc md = md.take i ++ md.drop i := (List.take_append_drop i md).symm
    _ = md.take i ++ (t ++ (md.drop i).drop t.length) := by rw [h2]
    _ = md.take i ++ (t ++ md.drop (i + t.length)) := by rw [h3]

/- ---------------------------------------------------------------------
C1 — non-destruction
--------------------------------------------------------------------- -/

lemma sublist_splice (r ins : Str) (p : Nat) :
    List.Sublist r (r.take p ++ ins ++ r.drop p) := by
  have h := List.Sublist.append (List.Sublist.refl (r.take p))
    (List.sublist_append_right ins (r.drop p))
  have h2 : r.take p ++ r.drop p = r := List.take_append_drop p r
  conv at h => rw [h2]
  simpa [List.append_assoc] using h

lemma sublist_wrap (r t u : Str) (i : Nat) (h : occursAt r t i = true) :
    List.Sublist r
      (r.take i ++ ('[' :: t) ++ (']' :: '(' :: u) ++ (')' :: []) ++ r.drop (i + t.length)) := by
  have hd := occursAt_decomp h
  have h2 : List.Sublist (r.drop (i + t.length))
      (']' :: '(' :: (u ++ ((')' :: []) ++ r.drop (i + t.length)))) := by
    refine List.Sublist.cons _ (List.Sublist.cons _ ?_)
    exact List.Sublist.trans (List.sublist_append_right (')' :: []) _)
      (List.sublist_append_right u _)
  have h3 : List.Sublist (t ++ r.drop (i + t.length))
      (('[' :: t) ++ (']' :: '(' :: (u ++ ((')' :: []) ++ r.drop (i + t.length))))) :=
    List.Sublist.append (List.sublist_cons_self '[' t) h2
  have h4 : List.Sublist r
      (r.take i ++ (('[' :: t) ++ (']' :: '(' :: (u ++ ((')' :: []) ++ r.drop (i + t.length)))))) := by
    conv_lhs => rw [hd]
    exact List.Sublist.append (List.Sublist.refl _) h3
  simpa [List.append_assoc] using h4

lemma linkGuard_occurs {md t : Str} {i : Nat} (h : linkGuard md t i = true) :
    occursAt md t i = true := by
  unfold linkGuard at h
  exact (((Bool.and_eq_true ..).mp ((Bool.and_eq_true ..).mp h).1).1)

lemma sublist_recover_step (r : Str) (tu : Str × Str) :
    List.Sublist r
      (if tu.1 = [] ∨ tu.2 = [] then r
       else
        match firstMatch r tu.1 with
        | some i =>
            r.take i ++ ('[' :: tu.1) ++ (']' :: '(' :: tu.2) ++ (')' :: [])
              ++ r.drop (i + tu.1.length)
        | none => r) := by
  by_cases he : tu.1 = [] ∨ tu.2 = []
  · simp [he]
  · simp only [he, if_false]
    cases hm : firstMatch r tu.1 with
    | none => exact List.Sublist.refl r
    | some i => exact sublist_wrap r tu.1 tu.2 i (linkGuard_occurs (scanPred_spec hm).1)

lemma sublist_insert_after (r s b : Str) :
    List.Sublist r (_insert_after_text r s b) := by
  unfold _insert_after_text
  by_cases h5 : (_normalize_for_match s).length < 5
  · simp only [h5, if_true]
    simpa [List.append_assoc] using
      List.sublist_append_left r (('\n' :: '\n' :: []) ++ b)
  · simp only [h5, if_false]
    cases hm : fuzzySearch r (trailWords (pySplit (_normalize_for_match s))) with
    | none =>
      simpa [List.append_assoc] using
        List.sublist_append_left r (('\n' :: '\n' :: []) ++ b)
    | some pe =>
      obtain ⟨p, e⟩ := pe
      cases hn : findNewlineFrom r e with
      | some q =>
        simp only [hn]
        simpa [List.append_assoc] using sublist_splice r (('\n' :: '\n' :: []) ++ b) q
      | none =>
        simp only [hn]
        simpa [List.append_assoc] using
          sublist_splice r (('\n' :: '\n' :: []) ++ b) r.length

lemma sublist_foldl {α : Type} {f : Str → α → Str}
    (hstep : ∀ r x, List.Sublist r (f r x)) :
    ∀ (l : List α) (r : Str), List.Sublist r (l.foldl f r) := by
  intro l
  induction l with
  | nil => intro r; exact List.Sublist.refl r
  | cons x xs ih => intro r; exact List.Sublist.trans (hstep r x) (ih (f r x))

/-- C1.  Non-destruction: for every input text and every list of link
records and image position records (with their analysis results), the
original text is a subsequence of the output of `recover_links` and of
`insert_image_blocks`: both operations only insert material and never
delete or reorder the extracted text. -/
theorem C1_non_destruction (md : Str) (link_map image_map : List (Str × Str))
    (analyses : List ImageAnalysisResult) :
    List.Sublist md (recover_links md link_map)
      ∧ List.Sublist md (insert_image_blocks md image_map analyses) := by
  constructor
  · exact sublist_foldl (fun r tu => sublist_recover_step r tu) link_map md
  · refine sublist_foldl (fun r p => ?_) image_map.reverse md
    cases ha : analysisByStem analyses p.2 with
    | none => simp only [ha]; exact List.Sublist.refl r
    | some a => simpa only [ha] using sublist_insert_after r p.1 (_format_image_block p.2 a)

/- ---------------------------------------------------------------------
C3 — fallback to end-of-document insertion
--------------------------------------------------------------------- -/

/-- C3.  For every position record whose image key has an analysis
result, if the normalized anchor is shorter than 5 characters or the
trailing-15-word case-insensitive whitespace-flexible pattern finds no
match, the image block is appended at the very end of the document: the
image is never dropped (the operations are total functions — no
exception path exists).  Stated both for `_insert_after_text` itself and
lifted through `insert_image_blocks` for a position record with an
analysis result. -/
theorem C3_no_match_appends_at_end :
    (∀ md s b : Str,
      ((_normalize_for_match s).length < 5
          ∨ fuzzySearch md (trailWords (pySplit (_normalize_for_match s))) = none) →
        _insert_after_text md s b = md ++ ('\n' :: '\n' :: []) ++ b)
    ∧ (∀ (md A stem : Str) (a : ImageAnalysisResult), a.filename_stem = stem →
        ((_normalize_for_match A).length < 5
            ∨ fuzzySearch md (trailWords (pySplit (_normalize_for_match A))) = none) →
          insert_image_blocks md [(A, stem)] [a]
            = md ++ ('\n' :: '\n' :: []) ++ _format_image_block stem a) := by
  have hbase : ∀ md s b : Str,
      ((_normalize_for_match s).length < 5
          ∨ fuzzySearch md (trailWords (pySplit (_normalize_for_match s))) = none) →
        _insert_after_text md s b = md ++ ('\n' :: '\n' :: []) ++ b := by
    intro md s b hcond
    unfold _insert_after_text
    rcases hcond with h5 | hm
    · simp [h5]
    · by_cases h5 : (_normalize_for_match s).length < 5
      · simp [h5]
      · simp [h5, hm]
  refine ⟨hbase, fun md A stem a ha hcond => ?_⟩
  have hstep : analysisByStem [a] stem = some a := by
    simp [analysisByStem, ha]
  simp only [insert_image_blocks, List.reverse_cons, List.reverse_nil, List.nil_append,
    List.foldl_cons, List.foldl_nil, hstep]
  exact hbase md A (_format_image_block stem a) hcond

theorem C3_no_match_appends_at_end_witness :
    _insert_after_text ("Some unrelated content here.").toList
        ("text that does not exist anywhere").toList ("> IMAGE").toList
      = "Some unrelated content here.".toList ++ ('\n' :: '\n' :: []) ++ "> IMAGE".toList
    ∧ insert_image_blocks ("Some unrelated content here.").toList
        [("ab".toList, "img001".toList)]
        [{ filename_stem := "img001".toList, description := "Shot.".toList }]
      = "Some unrelated content here.".toList ++ ('\n' :: '\n' :: [])
          ++ _format_image_block ("img001").toList
              { filename_stem := "img001".toList, description := "Shot.".toList } :=
  ⟨C3_no_match_appends_at_end.1 _ _ _ (Or.inr (by decide)),
   C3_no_match_appends_at_end.2 _ _ _ _ rfl (Or.inl (by decide))⟩

/- ---------------------------------------------------------------------
C7 — missing analysis results
--------------------------------------------------------------------- -/

/-- C7 as stated is false for the marker (mistral) variant: a marker
whose filename has no description is not skipped — `merge_article`
substitutes an image block carrying the placeholder description
`No description available.`.  Concretely, for the OCR text
`[[IMG:a.png]]` with an empty description mapping, the output contains
the placeholder text (so something was inserted for the image). -/
theorem C7_counterexample :
    containsSub (mergeArticleText ("[[IMG:a.png]]").toList ["a.png".toList] [] [])
        ("No description available.").toList = true
      ∧ mergeArticleText ("[[IMG:a.png]]").toList ["a.png".toList] [] []
          ≠ "[[IMG:a.png]]".toList := by
  constructor
  · decide
  · decide

/-- C7 (amended).  In the anchor-based variant (fn_convert), a position
record whose image key has no analysis result is skipped — inserting
neither an image block nor any placeholder — and every other record is
processed exactly as if the missing record were absent.  In the marker
variant (fn_convert_mistral), the marker is not skipped: it is replaced
by an image block with the placeholder description
`No description available.`. -/
theorem C7_missing_analysis (md : Str) :
    (∀ (map1 map2 : List (Str × Str)) (A stem : Str)
        (analyses : List ImageAnalysisResult),
      analysisByStem analyses stem = none →
        insert_image_blocks md (map1 ++ (A, stem) :: map2) analyses
          = insert_image_blocks md (map1 ++ map2) analyses)
    ∧ (∀ (f : Str) (descs : List (Str × Str)), lookupAssoc descs f = none →
        mergeArticleText md [f] descs []
          = pyReplace md ("[[IMG:".toList ++ f ++ "]]".toList)
              ("> **[Image: ".toList ++ pathStem f ++ "](images/".toList
                ++ pathStem f ++ ".png)**\n".toList
                ++ "> No description available.".toList)) := by
  constructor
  · intro map1 map2 A stem analyses hnone
    simp only [insert_image_blocks, List.reverse_append, List.reverse_cons,
      List.foldl_append, List.foldl_cons, List.foldl_nil, hnone]
  · intro f descs hnone
    have hclean : _clean_description ("No description available.").toList
        = "No description available.".toList := by decide
    simp only [mergeArticleText, List.foldl_cons, List.foldl_nil, mistralImageBlock,
      hnone, Option.getD_none, hclean]
    have hsplit : splitOnNl ("No description available.").toList
        = ["No description available.".toList] := by decide
    rw [hsplit]
    simp [joinNl, List.intercalate, List.intersperse, List.flatten]

theorem C7_missing_analysis_witness :
    insert_image_blocks ("Go to Settings.\n\nNext step.").toList
        ([] ++ ("Go to Settings.".toList, "img001".toList) :: [])
        [{ filename_stem := "other_img".toList, description := "Wrong image.".toList }]
      = insert_image_blocks ("Go to Settings.\n\nNext step.").toList ([] ++ [])
          [{ filename_stem := "other_img".toList, description := "Wrong image.".toList }]
    ∧ mergeArticleText ("x [[IMG:a.png]] y").toList ["a.png".toList] [] []
        = pyReplace ("x [[IMG:a.png]] y").toList ("[[IMG:".toList ++ "a.png".toList ++ "]]".toList)
            ("> **[Image: ".toList ++ pathStem ("a.png").toList ++ "](images/".toList
              ++ pathStem ("a.png").toList ++ ".png)**\n".toList
              ++ "> No description available.".toList) :=
  ⟨(C7_missing_analysis _).1 [] [] _ _ _ (by decide),
   (C7_missing_analysis _).2 ("a.png").toList [] (by decide)⟩

/- ---------------------------------------------------------------------
C8 — chunking of empty and heading-free documents
--------------------------------------------------------------------- -/

/-- C8.  `chunk_article` returns the empty list for an empty or
whitespace-only document; and for every non-empty document in which the
header regex finds no ATX heading line, it returns exactly one chunk
whose content is the trimmed document and whose `section_header` (and
title) are empty. -/
theorem C8_chunking_edge_cases :
    (∀ md : Str, pyStrip md = [] → chunk_article md = [])
    ∧ (∀ md : Str, pyStrip md ≠ [] → findHeaders md = [] →
        chunk_article md
          = [{ content := pyStrip md, title := [], section_header := [],
               image_refs := imageRefs (pyStrip md) }]) := by
  constructor
  · intro md h
    simp [chunk_article, h]
  · intro md h1 h2
    simp [chunk_article, h1, h2, _build_chunk]

theorem C8_chunking_edge_cases_witness :
    chunk_article ("   \n  ").toList = []
    ∧ chunk_article ("Just a paragraph.\n\nAnother paragraph.").toList
        = [{ content := pyStrip ("Just a paragraph.\n\nAnother paragraph.").toList,
             title := [], section_header := [],
             image_refs := imageRefs (pyStrip ("Just a paragraph.\n\nAnother paragraph.").toList) }] :=
  ⟨C8_chunking_edge_cases.1 _ (by decide),
   C8_chunking_edge_cases.2 _ (by decide) (by decide)⟩

/- ---------------------------------------------------------------------
C5 — first-occurrence linking
--------------------------------------------------------------------- -/

/-- C5 as stated is false: the implemented guard (`not immediately
preceded by "["` and `not immediately followed by "]("`) is cruder than
`not already inside a Markdown link construct`.  Concretely, in
`[a bar b](u)` the only occurrence of `bar` lies strictly inside the
existing Markdown link, yet `recover_links` wraps it, producing nested
brackets inside the link text. -/
theorem C5_counterexample :
    recover_links ("[a bar b](u)").toList [("bar".toList, "v".toList)]
      = "[a [bar](v) b](u)".toList := by decide

/-- C5 (amended).  For a record `(t, u)` with non-empty text and url,
`recover_links` wraps exactly the first occurrence of `t` that is not
immediately preceded by `[` and not immediately followed by `](` (the
code's approximation of "already inside a Markdown link"): if such an
occurrence exists at least index `i`, the output splices `[t](u)` in
place of that occurrence, leaving everything else unchanged; if no
guarded occurrence exists — in particular when every occurrence is
already bracketed as `[t](` — the document is returned unchanged. -/
theorem C5_first_occurrence (md t u : Str) (ht : t ≠ []) (hu : u ≠ []) :
    (∀ i, firstMatch md t = some i →
        linkGuard md t i = true
        ∧ (∀ j, j < i → linkGuard md t j = false)
        ∧ recover_links md [(t, u)]
            = md.take i ++ ('[' :: t) ++ (']' :: '(' :: u) ++ (')' :: [])
                ++ md.drop (i + t.length))
    ∧ (firstMatch md t = none →
        (∀ j, linkGuard md t j = false) ∧ recover_links md [(t, u)] = md) := by
  constructor
  · intro i hi
    obtain ⟨hg, _, hmin⟩ := scanPred_spec hi
    refine ⟨hg, fun j hj => hmin j (Nat.zero_le j) hj, ?_⟩
    simp [recover_links, ht, hu, hi]
  · intro hn
    have hall := scanPred_none hn
    constructor
    · intro j
      by_cases hj : j < md.length + 1
      · exact hall j (Nat.zero_le j) (by simpa using hj)
      · have hdrop : md.drop j = [] := List.drop_of_length_le (by omega)
        unfold linkGuard occursAt
        rw [hdrop]
        cases t with
        | nil => exact absurd rfl ht
        | cons c ts => simp [List.isPrefixOf]
    · simp [recover_links, ht, hu, hn]

theorem C5_first_occurrence_witness :
    linkGuard ("Use Feature A here. Also use Feature A there.").toList ("Feature A").toList 4 = true
    ∧ recover_links ("Use Feature A here. Also use Feature A there.").toList
        [("Feature A".toList, "https://x/a".toList)]
      = ("Use Feature A here. Also use Feature A there.".toList).take 4
          ++ ('[' :: "Feature A".toList) ++ (']' :: '(' :: "https://x/a".toList) ++ (')' :: [])
          ++ ("Use Feature A here. Also use Feature A there.".toList).drop (4 + "Feature A".toList.length) := by
  have h := (C5_first_occurrence ("Use Feature A here. Also use Feature A there.").toList
    ("Feature A").toList ("https://x/a").toList (by decide) (by decide)).1 4 (by decide)
  exact ⟨h.1, h.2.2⟩

/- ---------------------------------------------------------------------
C6 — word-boundary discipline
--------------------------------------------------------------------- -/

/-- C6 as stated is false for the fn_convert variant of `recover_links`,
which applies no word-boundary anchors: on
`Use the Foundry Tools for setup.` with record `("Foundry Tool", url)`,
it wraps the mid-word match, so the output does contain
`[Foundry Tool]`. -/
theorem C6_counterexample :
    containsSub
      (recover_links ("Use the Foundry Tools for setup.").toList
        [("Foundry Tool".toList, "https://x".toList)])
      ("[Foundry Tool]").toList = true := by decide

lemma occursAt_getElem {md t : Str} {i j : Nat} (h : occursAt md t i = true)
    (hj : j < t.length) : md[i + j]? = t[j]? := by
  have hp : t <+: md.drop i := List.isPrefixOf_iff_prefix.mp h
  obtain ⟨r, hr⟩ := hp
  have h1 : md[i + j]? = (md.drop i)[j]? := (List.getElem?_drop md i j).symm
  rw [h1, ← hr]
  simp [List.getElem?_append, hj]

lemma bne_true_left {a b : Bool} (h : (a != b) = true) (ha : a = true) : b = false := by
  subst ha; cases b <;> simp_all

lemma bne_true_right {a b : Bool} (h : (a != b) = true) (hb : b = true) : a = false := by
  subst hb; cases a <;> simp_all

lemma mistralLinkGuard_parts {md t : Str} {i : Nat}
    (h : mistralLinkGuard md t i = true) :
    occursAt md t i = true
    ∧ (startsWordChar t = true → wordBoundary md i = true)
    ∧ (endsWordChar t = true → wordBoundary md (i + t.length) = true) := by
  unfold mistralLinkGuard at h
  simp only [Bool.and_eq_true] at h
  obtain ⟨⟨⟨⟨h1, _⟩, h3⟩, h4⟩, _⟩ := h
  refine ⟨h1, ?_, ?_⟩
  · intro hs
    rcases Bool.or_eq_true .. |>.mp h3 with h' | h'
    · rw [hs] at h'; simp at h'
    · exact h'
  · intro hs
    rcases Bool.or_eq_true .. |>.mp h4 with h' | h'
    · rw [hs] at h'; simp at h'
    · exact h'

/-- C6 (amended).  The word-boundary discipline holds for the
fn_convert_mistral variant of `recover_links` (which adds `\b` anchors):
whenever its pattern matches at `i`, a link text beginning with a word
character never begins mid-word and one ending with a word character
never ends mid-word; in particular that variant leaves
`Use the Foundry Tools for setup.` unchanged for the record
`("Foundry Tool", url)`.  The fn_convert variant has no such anchors
(see the counterexample). -/
theorem C6_word_boundary :
    (∀ (md t : Str) (i : Nat), mistralFirstMatch md t = some i →
        (startsWordChar t = true → notMidWordStart md i = true)
        ∧ (∀ c, t.getLast? = some c → isWordChar c = true →
            notMidWordEnd md (i + t.length) = true))
    ∧ mistral_recover_links ("Use the Foundry Tools for setup.").toList
        [("Foundry Tool".toList, "https://x".toList)]
      = "Use the Foundry Tools for setup.".toList
    ∧ containsSub
        (mistral_recover_links ("Use the Foundry Tools for setup.").toList
          [("Foundry Tool".toList, "https://x".toList)])
        ("[Foundry Tool]").toList = false := by
  refine ⟨?_, by decide, by decide⟩
  intro md t i hi
  obtain ⟨hocc, hws, hwe⟩ := mistralLinkGuard_parts (scanPred_spec hi).1
  constructor
  · intro hs
    have hb := hws hs
    cases ht : t with
    | nil => rw [ht] at hs; simp [startsWordChar] at hs
    | cons c ts =>
      have hc : isWordChar c = true := by
        rw [ht] at hs; simpa [startsWordChar] using hs
      have hmd : md[i]? = some c := by
        have := occursAt_getElem (t := t) (j := 0) hocc (by rw [ht]; simp)
        rw [ht] at this
        simpa using this
      unfold wordBoundary at hb
      rw [hmd] at hb
      have hleft := bne_true_right hb (by simp [hc])
      unfold notMidWordStart
      by_cases hi0 : i = 0
      · simp [hi0]
      · have hdec : decide (0 < i) = true := by simp [Nat.pos_of_ne_zero hi0]
        rw [hdec, Bool.true_and] at hleft
        cases hm : md[i-1]? with
        | none => simp [List.getD, hm, isWordChar]
        | some d =>
          rw [hm] at hleft
          simp only [Option.elim_some] at hleft
          simp [List.getD, hm, hleft, hi0]
  · intro c hlast hc
    have hne : t ≠ [] := by
      intro hnil; rw [hnil] at hlast; simp at hlast
    have hend : endsWordChar t = true := by
      unfold endsWordChar
      have hhead : t.reverse.head? = some c := by
        rw [List.head?_reverse]; exact hlast
      cases hrev : t.reverse with
      | nil => rw [hrev] at hhead; simp at hhead
      | cons c2 r =>
        rw [hrev] at hhead
        simp only [List.head?_cons, Option.some.injEq] at hhead
        subst hhead
        simp [hc]
    have hb := hwe hend
    have hpos : 0 < i + t.length := by
      cases t with
      | nil => exact absurd rfl hne
      | cons x xs => simp
    have hlastElem : md[i + t.length - 1]? = some c := by
      have hj : t.length - 1 < t.length := by
        cases t with
        | nil => exact absurd rfl hne
        | cons x xs => simp
      have hmain := occursAt_getElem hocc hj
      have ht2 : t[t.length - 1]? = some c := by
        rw [← List.getLast?_eq_getElem?]; exact hlast
      rw [ht2] at hmain
      have harith : i + t.length - 1 = i + (t.length - 1) := by omega
      rw [harith]
      exact hmain
    unfold wordBoundary at hb
    rw [hlastElem] at hb
    have hdec2 : decide (0 < i + t.length) = true := by simp [hpos]
    have hleft2 : (decide (0 < i + t.length) && (some c).elim false isWordChar) = true := by
      simp only [Option.elim_some, hc, Bool.and_true, hdec2]
    have hright := bne_true_left hb hleft2
    unfold notMidWordEnd
    cases hm : md[i + t.length]? with
    | none => simp [List.getD, hm, isWordChar]
    | some d =>
      rw [hm] at hright
      simp only [Option.elim_some] at hright
      simp [List.getD, hm, hright]

theorem C6_word_boundary_witness :
    notMidWordStart ("a Foundry Tool b").toList 2 = true
    ∧ notMidWordEnd ("a Foundry Tool b").toList (2 + "Foundry Tool".toList.length) = true :=
  ⟨(C6_word_boundary.1 ("a Foundry Tool b").toList ("Foundry Tool").toList 2 (by decide)).1 (by decide),
   (C6_word_boundary.1 ("a Foundry Tool b").toList ("Foundry Tool").toList 2 (by decide)).2
     'l' (by decide) (by decide)⟩

/- ---------------------------------------------------------------------
C2 — reverse-order processing with a shared anchor
--------------------------------------------------------------------- -/

lemma scanPred_intro {p : Nat → Bool} :
    ∀ {fuel s i : Nat}, s ≤ i → i < s + fuel → p i = true →
      (∀ j, s ≤ j → j < i → p j = false) → scanPred p s fuel = some i := by
  intro fuel
  induction fuel with
  | zero => intro s i h1 h2 _ _; omega
  | succ n ih =>
    intro s i h1 h2 h3 h4
    by_cases hs : s = i
    · subst hs; simp [scanPred, h3]
    · have hps : p s = false := h4 s (Nat.le_refl s) (Nat.lt_of_le_of_ne h1 hs)
      simp only [scanPred, hps, Bool.false_eq_true, if_false]
      exact ih (by omega) (by omega) h3 (fun j hj1 hj2 => h4 j (by omega) hj2)

lemma fuzzySearch_end_le {md : Str} {ws : List Str} {st e : Nat}
    (h : fuzzySearch md ws = some (st, e)) : e ≤ md.length := by
  obtain ⟨hf, _, _⟩ := scanFirst_spec h
  cases hms : matchSeq (md.drop st) ws with
  | none => rw [hms] at hf; simp at hf
  | some rest =>
    rw [hms] at hf
    simp only [Option.some.injEq] at hf
    omega

/-- Inserting a block that starts with a newline at position `p` — the
end of the line containing a match ending at `e ≤ p` — does not change
the result of the newline search from `e`: the first newline at or
after `e` in the spliced document is still at `p` (either the original
newline now sits behind the splice, or `p` was the end of the document
and the inserted text supplies the newline). -/
lemma findNewline_prefix_stable (md rest : Str) {e p : Nat}
    (hep : e ≤ p) (hplen : p ≤ md.length)
    (hmid : ∀ j, e ≤ j → j < p → ¬ (md[j]? = some '\n'))
    (hrest : rest[0]? = some '\n') :
    findNewlineFrom (md.take p ++ rest) e = some p := by
  have htklen : (md.take p).length = p := by
    simp [List.length_take, Nat.min_eq_left hplen]
  have hrne : rest ≠ [] := by
    intro hcontra; rw [hcontra] at hrest; simp at hrest
  unfold findNewlineFrom
  apply scanPred_intro hep
  · have hlen : (md.take p ++ rest).length = p + rest.length := by
      simp [htklen]
    have hrpos : 0 < rest.length := List.length_pos.mpr hrne
    omega
  · have hPat : (md.take p ++ rest)[p]? = rest[0]? := by
      rw [List.getElem?_append, if_neg (by omega)]
      simp [htklen]
    simp [hPat, hrest]
  · intro j hj1 hj2
    have hjat : (md.take p ++ rest)[j]? = md[j]? := by
      rw [List.getElem?_append, if_pos (by omega)]
      rw [List.getElem?_take, if_pos hj2]
    rw [hjat]
    exact beq_eq_false_iff_ne.mpr (hmid j hj1 hj2)

/-- Unfolding of `_insert_after_text` on a successful fuzzy match whose
line ends at `p` (the next newline, or the document end when none). -/
lemma insert_after_eq_of (md A b : Str) (st e p : Nat)
    (h5 : ¬ (_normalize_for_match A).length < 5)
    (hm : fuzzySearch md (trailWords (pySplit (_normalize_for_match A))) = some (st, e))
    (hq : findNewlineFrom md e = some p ∨ (findNewlineFrom md e = none ∧ p = md.length)) :
    _insert_after_text md A b = md.take p ++ ('\n' :: '\n' :: []) ++ b ++ md.drop p := by
  unfold _insert_after_text
  simp only [if_neg h5, hm]
  rcases hq with hq | ⟨hq, hp⟩
  · simp [hq]
  · simp [hq, hp]

lemma containsSub_of_append (x n y : Str) : containsSub (x ++ (n ++ y)) n = true := by
  unfold containsSub
  rw [List.any_eq_true]
  refine ⟨x.length, List.mem_range.mpr (by simp; omega), ?_⟩
  rw [List.drop_left]
  exact List.isPrefixOf_iff_prefix.mpr (List.prefix_append n y)

/-- C2.  `insert_image_blocks` processes records in reverse document
order; given two records sharing the same anchor text (the trailing-word
pattern matching at `(st, e)` in the document, with `p` the end of the
matched line, and still matching at the same span after the first
insertion — the inserted block starts with a fresh paragraph so the
original match is undisturbed), both formatted image blocks end up in
the output immediately after the line containing the shared anchor, in
document order `s1` before `s2`, neither insertion corrupting the
placement of the other. -/
theorem C2_reverse_order_shared_anchor
    (md A s1 s2 : Str) (a1 a2 : ImageAnalysisResult)
    (hs : s1 ≠ s2) (h1 : a1.filename_stem = s1) (h2 : a2.filename_stem = s2)
    (h5 : ¬ (_normalize_for_match A).length < 5) (st e p : Nat)
    (hm1 : fuzzySearch md (trailWords (pySplit (_normalize_for_match A))) = some (st, e))
    (hq : findNewlineFrom md e = some p ∨ (findNewlineFrom md e = none ∧ p = md.length))
    (hm2 : fuzzySearch
        (md.take p ++ ('\n' :: '\n' :: []) ++ _format_image_block s2 a2 ++ md.drop p)
        (trailWords (pySplit (_normalize_for_match A))) = some (st, e)) :
    insert_image_blocks md [(A, s1), (A, s2)] [a1, a2]
      = md.take p ++ ('\n' :: '\n' :: []) ++ _format_image_block s1 a1
          ++ ('\n' :: '\n' :: []) ++ _format_image_block s2 a2 ++ md.drop p
    ∧ containsSub (insert_image_blocks md [(A, s1), (A, s2)] [a1, a2])
        (_format_image_block s1 a1) = true
    ∧ containsSub (insert_image_blocks md [(A, s1), (A, s2)] [a1, a2])
        (_format_image_block s2 a2) = true := by
  have ha2 : analysisByStem [a1, a2] s2 = some a2 := by
    simp [analysisByStem, h1, h2, hs]
  have ha1 : analysisByStem [a1, a2] s1 = some a1 := by
    simp [analysisByStem, h1, h2, Ne.symm hs]
  have hunfold : insert_image_blocks md [(A, s1), (A, s2)] [a1, a2]
      = _insert_after_text (_insert_after_text md A (_format_image_block s2 a2)) A
          (_format_image_block s1 a1) := by
    simp only [insert_image_blocks, List.reverse_cons, List.reverse_nil, List.nil_append,
      List.singleton_append, List.foldl_cons, List.foldl_nil, ha1, ha2]
  have hele : e ≤ md.length := fuzzySearch_end_le hm1
  have hprops : e ≤ p ∧ p ≤ md.length ∧ ∀ j, e ≤ j → j < p → ¬ (md[j]? = some '\n') := by
    rcases hq with hq | ⟨hq, hp⟩
    · obtain ⟨hpn, hep, hmin⟩ := scanPred_spec hq
      have hpn' : md[p]? = some '\n' := by simpa using hpn
      have hplt : p < md.length := (List.getElem?_eq_some.mp hpn').1
      exact ⟨hep, Nat.le_of_lt hplt, fun j hj1 hj2 =>
        beq_eq_false_iff_ne.mp (hmin j hj1 hj2)⟩
    · subst hp
      have hall := scanPred_none hq
      exact ⟨hele, Nat.le_refl _, fun j hj1 hj2 =>
        beq_eq_false_iff_ne.mp (hall j hj1 (by omega))⟩
  obtain ⟨hep, hplen, hmid⟩ := hprops
  have htklen : (md.take p).length = p := by
    simp [List.length_take, Nat.min_eq_left hplen]
  have hr1 : _insert_after_text md A (_format_image_block s2 a2)
      = md.take p ++ ('\n' :: '\n' :: []) ++ _format_image_block s2 a2 ++ md.drop p :=
    insert_after_eq_of md A _ st e p h5 hm1 hq
  have hassoc : md.take p ++ ('\n' :: '\n' :: []) ++ _format_image_block s2 a2 ++ md.drop p
      = md.take p ++ (('\n' :: '\n' :: []) ++ (_format_image_block s2 a2 ++ md.drop p)) := by
    simp [List.append_assoc]
  have hstable : findNewlineFrom
      (md.take p ++ ('\n' :: '\n' :: []) ++ _format_image_block s2 a2 ++ md.drop p) e
      = some p := by
    rw [hassoc]
    exact findNewline_prefix_stable md _ hep hplen hmid rfl
  have hr2 : _insert_after_text
      (md.take p ++ ('\n' :: '\n' :: []) ++ _format_image_block s2 a2 ++ md.drop p) A
      (_format_image_block s1 a1)
      = (md.take p ++ ('\n' :: '\n' :: []) ++ _format_image_block s2 a2 ++ md.drop p).take p
          ++ ('\n' :: '\n' :: []) ++ _format_image_block s1 a1
          ++ (md.take p ++ ('\n' :: '\n' :: []) ++ _format_image_block s2 a2 ++ md.drop p).drop p :=
    insert_after_eq_of _ A _ st e p h5 hm2 (Or.inl hstable)
  have htake : (md.take p ++ ('\n' :: '\n' :: []) ++ _format_image_block s2 a2 ++ md.drop p).take p
      = md.take p := by
    rw [hassoc]; exact List.take_left' htklen
  have hdrop : (md.take p ++ ('\n' :: '\n' :: []) ++ _format_image_block s2 a2 ++ md.drop p).drop p
      = ('\n' :: '\n' :: []) ++ (_format_image_block s2 a2 ++ md.drop p) := by
    rw [hassoc]; exact List.drop_left' htklen
  have hout : insert_image_blocks md [(A, s1), (A, s2)] [a1, a2]
      = md.take p ++ ('\n' :: '\n' :: []) ++ _format_image_block s1 a1
          ++ ('\n' :: '\n' :: []) ++ _format_image_block s2 a2 ++ md.drop p := by
    rw [hunfold, hr1, hr2, htake, hdrop]
    simp [List.append_assoc]
  refine ⟨hout, ?_, ?_⟩
  · rw [hout]
    have hshape : md.take p ++ ('\n' :: '\n' :: []) ++ _format_image_block s1 a1
          ++ ('\n' :: '\n' :: []) ++ _format_image_block s2 a2 ++ md.drop p
        = (md.take p ++ ('\n' :: '\n' :: []))
            ++ (_format_image_block s1 a1
              ++ (('\n' :: '\n' :: []) ++ (_format_image_block s2 a2 ++ md.drop p))) := by
      simp [List.append_assoc]
    rw [hshape]
    exact containsSub_of_append _ _ _
  · rw [hout]
    have hshape : md.take p ++ ('\n' :: '\n' :: []) ++ _format_image_block s1 a1
          ++ ('\n' :: '\n' :: []) ++ _format_image_block s2 a2 ++ md.drop p
        = (md.take p ++ (('\n' :: '\n' :: []) ++ (_format_image_block s1 a1
            ++ ('\n' :: '\n' :: []))))
            ++ (_format_image_block s2 a2 ++ md.drop p) := by
      simp [List.append_assoc]
    rw [hshape]
    exact containsSub_of_append _ _ _

theorem C2_reverse_order_shared_anchor_witness :
    insert_image_blocks ("Follow these steps:\n\nDo the next thing.").toList
        [("Follow these steps:".toList, "img001".toList),
         ("Follow these steps:".toList, "img002".toList)]
        [{ filename_stem := "img001".toList, description := "First shot.".toList },
         { filename_stem := "img002".toList, description := "Second shot.".toList }]
      = ("Follow these steps:\n\nDo the next thing.".toList).take 19
          ++ ('\n' :: '\n' :: [])
          ++ _format_image_block ("img001").toList
              { filename_stem := "img001".toList, description := "First shot.".toList }
          ++ ('\n' :: '\n' :: [])
          ++ _format_image_block ("img002").toList
              { filename_stem := "img002".toList, description := "Second shot.".toList }
          ++ ("Follow these steps:\n\nDo the next thing.".toList).drop 19 :=
  (C2_reverse_order_shared_anchor ("Follow these steps:\n\nDo the next thing.").toList
    ("Follow these steps:").toList ("img001").toList ("img002").toList
    { filename_stem := "img001".toList, description := "First shot.".toList }
    { filename_stem := "img002".toList, description := "Second shot.".toList }
    (by decide) rfl rfl (by decide) 0 19 19
    (by decide) (Or.inl (by decide)) (by decide)).1

/- ---------------------------------------------------------------------
C9 / C10 — image-reference extraction
--------------------------------------------------------------------- -/

lemma isPrefixOf_append_self (x y : Str) : x.isPrefixOf (x ++ y) = true :=
  List.isPrefixOf_iff_prefix.mpr (List.prefix_append x y)

lemma takeUntil_append {c : Char} {xs ys : Str} (h : c ∉ xs) :
    takeUntil c (xs ++ c :: ys) = some (xs, ys) := by
  induction xs with
  | nil => simp [takeUntil]
  | cons x xt ih =>
    have hx : ¬ (x = c) := fun hc => h (hc ▸ List.mem_cons_self x xt)
    have ih2 := ih (fun hm => h (List.mem_cons_of_mem x hm))
    show takeUntil c (x :: (xt ++ c :: ys)) = some (x :: xt, ys)
    rw [takeUntil, if_neg hx, ih2]
    rfl

lemma takeUntil_rest_lt {c : Char} :
    ∀ {s a b : Str}, takeUntil c s = some (a, b) → b.length < s.length := by
  intro s
  induction s with
  | nil => intro a b h; simp [takeUntil] at h
  | cons x t ih =>
    intro a b h
    by_cases hx : x = c
    · simp [takeUntil, hx] at h
      obtain ⟨_, h2⟩ := h
      subst h2; simp
    · rw [takeUntil, if_neg hx] at h
      cases hr : takeUntil c t with
      | none => rw [hr] at h; cases h
      | some p =>
        obtain ⟨pa, pb⟩ := p
        rw [hr] at h
        simp only [Option.map_some'] at h
        cases h
        have := ih hr
        simp only [List.length_cons]
        omega

/-- The scanner's single-match result on the exact wire format: the
reference `[Image: <k>](images/<k>.png)` of a key without `]` or `)`
yields group 2 `<k>.png` and resumes right after the closing
parenthesis. -/
lemma matchImageRefAt_marker (k rest : Str) (hk : k ≠ [])
    (hk1 : ']' ∉ k) (hk2 : ')' ∉ k) :
    matchImageRefAt ("[Image: ".toList ++ k ++ "](images/".toList ++ k ++ ".png)".toList ++ rest)
      = some (k ++ ".png".toList, rest) := by
  have hshape : "[Image: ".toList ++ k ++ "](images/".toList ++ k ++ ".png)".toList ++ rest
      = "[Image:".toList
          ++ (((' ' :: k) ++ (']' :: ("(images/".toList
            ++ (((k ++ ".png".toList)) ++ (')' :: rest)))))) := by
    have h1 : "[Image: ".toList = "[Image:".toList ++ [' '] := by decide
    have h2 : "](images/".toList = ']' :: "(images/".toList := by decide
    have h3 : ".png)".toList = ".png".toList ++ [')'] := by decide
    rw [h1, h2, h3]
    simp [List.append_assoc]
  rw [hshape]
  unfold matchImageRefAt
  rw [if_pos (isPrefixOf_append_self ..)]
  have hd7 : ("[Image:".toList
      ++ ((' ' :: k) ++ (']' :: ("(images/".toList
        ++ ((k ++ ".png".toList) ++ (')' :: rest)))))).drop 7
      = (' ' :: k) ++ (']' :: ("(images/".toList
        ++ ((k ++ ".png".toList) ++ (')' :: rest)))) := List.drop_left' (by decide)
  rw [hd7]
  have ht1 : takeUntil ']' ((' ' :: k) ++ (']' :: ("(images/".toList
      ++ ((k ++ ".png".toList) ++ (')' :: rest)))))
      = some (' ' :: k, "(images/".toList ++ ((k ++ ".png".toList) ++ (')' :: rest))) := by
    apply takeUntil_append
    intro hm
    rcases List.mem_cons.mp hm with h | h
    · exact absurd h (by decide)
    · exact hk1 h
  rw [ht1]
  simp only []
  rw [if_neg (by simp : ¬ (' ' :: k = []))]
  rw [if_pos (isPrefixOf_append_self ..)]
  have hd8 : ("(images/".toList ++ ((k ++ ".png".toList) ++ (')' :: rest))).drop 8
      = (k ++ ".png".toList) ++ (')' :: rest) := List.drop_left' (by decide)
  rw [hd8]
  have ht2 : takeUntil ')' ((k ++ ".png".toList) ++ (')' :: rest))
      = some (k ++ ".png".toList, rest) := by
    apply takeUntil_append
    intro hm
    rcases List.mem_append.mp hm with h | h
    · exact hk2 h
    · exact absurd h (by decide)
  rw [ht2]
  simp only []
  rw [if_pos ?_]
  constructor
  · have hkpos := List.length_pos.mpr hk
    simp only [List.length_append]
    have h4 : ".png".toList.length = 4 := by decide
    omega
  · exact List.isSuffixOf_iff_suffix.mpr (List.suffix_append k _)

lemma matchImageRefAt_none {s : Str} (h : "[Image:".toList.isPrefixOf s = false) :
    matchImageRefAt s = none := by
  unfold matchImageRefAt
  rw [h]
  simp

lemma matchImageRefAt_rest_lt {s g r : Str} (h : matchImageRefAt s = some (g, r)) :
    r.length < s.length := by
  unfold matchImageRefAt at h
  split at h
  case isFalse => exact absurd h (by simp)
  case isTrue hp =>
    cases ht1 : takeUntil ']' (s.drop 7) with
    | none => rw [ht1] at h; exact absurd h (by simp)
    | some p1 =>
      obtain ⟨g1, s2⟩ := p1
      rw [ht1] at h
      simp only [] at h
      split at h
      · exact absurd h (by simp)
      · split at h
        case isTrue hp2 =>
          cases ht2 : takeUntil ')' (s2.drop 8) with
          | none => rw [ht2] at h; exact absurd h (by simp)
          | some p2 =>
            obtain ⟨g2, s4⟩ := p2
            rw [ht2] at h
            simp only [] at h
            split at h
            · cases h
              have l1 := takeUntil_rest_lt ht1
              have l2 := takeUntil_rest_lt ht2
              simp only [List.length_drop] at l1 l2
              omega
            · exact absurd h (by simp)
        case isFalse => exact absurd h (by simp)

lemma imageRefsAux_fuel : ∀ (f1 : Nat) {f2 : Nat} (s : Str),
    s.length < f1 → s.length < f2 → imageRefsAux f1 s = imageRefsAux f2 s := by
  intro f1
  induction f1 with
  | zero => intro f2 s h1 _; omega
  | succ n ih =>
    intro f2 s h1 h2
    cases f2 with
    | zero => omega
    | succ m =>
      cases s with
      | nil => simp [imageRefsAux]
      | cons c t =>
        cases hm : matchImageRefAt (c :: t) with
        | some p =>
          obtain ⟨g, r⟩ := p
          have hlt := matchImageRefAt_rest_lt hm
          simp only [List.length_cons] at h1 h2 hlt
          simp only [imageRefsAux, hm]
          have hr2 : imageRefsAux n r = imageRefsAux m r := ih r (by omega) (by omega)
          rw [hr2]
        | none =>
          simp only [List.length_cons] at h1 h2
          simp only [imageRefsAux, hm]
          exact ih t (by omega) (by omega)

lemma imageRefs_of_match {s g r : Str} (h : matchImageRefAt s = some (g, r)) :
    imageRefs s = g :: imageRefs r := by
  cases s with
  | nil =>
    rw [matchImageRefAt_none (by decide)] at h
    cases h
  | cons c t =>
    have hlt := matchImageRefAt_rest_lt h
    simp only [List.length_cons] at hlt
    show imageRefsAux ((c :: t).length + 1) (c :: t) = g :: imageRefs r
    simp only [List.length_cons, imageRefsAux, h]
    congr 1
    exact imageRefsAux_fuel (t.length + 1) r (by omega) (by omega)

lemma imageRefs_skip : ∀ (A rest : Str),
    (∀ j, j < A.length → "[Image:".toList.isPrefixOf ((A ++ rest).drop j) = false) →
    imageRefs (A ++ rest) = imageRefs rest := by
  intro A
  induction A with
  | nil => intro rest _; simp
  | cons c A' ih =>
    intro rest hA
    have h0 : "[Image:".toList.isPrefixOf (c :: (A' ++ rest)) = false := by
      have := hA 0 (by simp)
      simpa using this
    have hstep : imageRefs ((c :: A') ++ rest) = imageRefs (A' ++ rest) := by
      show imageRefsAux (((c :: A') ++ rest).length + 1) ((c :: A') ++ rest) = _
      have hcons : (c :: A') ++ rest = c :: (A' ++ rest) := rfl
      rw [hcons]
      simp only [List.length_cons, imageRefsAux, matchImageRefAt_none h0]
      rfl
    rw [hstep]
    refine ih rest (fun j hj => ?_)
    exact hA (j + 1) (by simp only [List.length_cons]; omega)

lemma no_imgpfx_positions {A rest : Str} (hA : containsSub A ("[Image:").toList = false)
    (hrest : rest[0]? = some '[') :
    ∀ j, j < A.length → "[Image:".toList.isPrefixOf ((A ++ rest).drop j) = false := by
  intro j hj
  by_contra hcontra
  have hpre : "[Image:".toList.isPrefixOf ((A ++ rest).drop j) = true := by
    simpa using hcontra
  have hlen7top : "[Image:".toList.length = 7 := by decide
  by_cases hfit : j + 7 ≤ A.length
  · have hdropA : (A ++ rest).drop j = A.drop j ++ rest :=
      List.drop_append_of_le_length (by omega)
    have hp : "[Image:".toList <+: A.drop j ++ rest :=
      List.isPrefixOf_iff_prefix.mp (hdropA ▸ hpre)
    have htake : (A.drop j ++ rest).take 7 = (A.drop j).take 7 :=
      List.take_append_of_le_length (by simp; omega)
    have hp2 : "[Image:".toList <+: A.drop j := by
      have heq := List.prefix_iff_eq_take.mp hp
      rw [hlen7top, htake] at heq
      exact heq ▸ List.take_prefix 7 (A.drop j)
    have hcont : containsSub A ("[Image:").toList = true := by
      unfold containsSub
      rw [List.any_eq_true]
      exact ⟨j, List.mem_range.mpr (by omega), List.isPrefixOf_iff_prefix.mpr hp2⟩
    rw [hcont] at hA
    cases hA
  · have hocc2 : occursAt (A ++ rest) ("[Image:").toList j = true := hpre
    have hlen7 : "[Image:".toList.length = 7 := by decide
    have hm := occursAt_getElem hocc2 (show A.length - j < ("[Image:").toList.length by
      rw [hlen7]; omega)
    have hidx : j + (A.length - j) = A.length := by omega
    rw [hidx] at hm
    have hAR : (A ++ rest)[A.length]? = rest[0]? := by
      rw [List.getElem?_append, if_neg (by omega)]
      simp
    rw [hAR, hrest] at hm
    have hsmall : ∀ m, m < 7 → ("[Image:".toList[m]? = some '[' → m = 0) := by decide
    have hm0 := hsmall (A.length - j) (by omega) hm.symm
    omega

lemma marker_headElem (k rest : Str) :
    ("[Image: ".toList ++ k ++ "](images/".toList ++ k ++ ".png)".toList ++ rest)[0]?
      = some '[' := by
  have hcons : "[Image: ".toList ++ k ++ "](images/".toList ++ k ++ ".png)".toList ++ rest
      = '[' :: ("Image: ".toList ++ (k ++ ("](images/".toList ++ (k ++ (".png)".toList ++ rest))))) := by
    have hbr : "[Image: ".toList = '[' :: "Image: ".toList := by decide
    rw [hbr]
    simp [List.append_assoc]
  rw [hcons]
  rfl

/-- C9 as stated is false: the extraction regex does not accept every
key the formatter can emit.  For the key `a]b`, the chunk content holds
the verbatim formatted block, yet `image_refs` is empty — in particular
`a]b.png` is not among the refs (the `[^\]]+` group stops at the `]`
inside the key and the match fails). -/
theorem C9_counterexample :
    containsSub ("> **[Image: a]b](images/a]b.png)**\n> Description.").toList
        ("> **[Image: a]b](images/a]b.png)**").toList = true
    ∧ (_build_chunk ("> **[Image: a]b](images/a]b.png)**\n> Description.").toList
        [] []).image_refs = []
    ∧ ¬ ("a]b.png".toList ∈ (_build_chunk
        ("> **[Image: a]b](images/a]b.png)**\n> Description.").toList [] []).image_refs) :=
  ⟨by decide, by decide, by decide⟩

/-- C9 (amended).  For every non-empty image key containing neither `]`
nor `)`, a chunk whose content carries the merge engine's formatted
block `> **[Image: k](images/k.png)**`, with no occurrence of `[Image:`
before the block's own marker, has `k.png` among its `image_refs`: the
chunker's extraction regex accepts exactly the wire format the merge
formatter emits for such keys. -/
theorem C9_image_ref_roundtrip (k pre post t h : Str)
    (hk : k ≠ []) (hk1 : ']' ∉ k) (hk2 : ')' ∉ k)
    (hpre : containsSub (pre ++ "> **".toList) ("[Image:").toList = false) :
    (k ++ ".png".toList) ∈ (_build_chunk
        (pre ++ ("> **[Image: ".toList ++ k ++ "](images/".toList ++ k ++ ".png)**".toList)
          ++ post) t h).image_refs := by
  have hsh : pre ++ ("> **[Image: ".toList ++ k ++ "](images/".toList ++ k ++ ".png)**".toList)
        ++ post
      = (pre ++ "> **".toList)
          ++ ("[Image: ".toList ++ k ++ "](images/".toList ++ k ++ ".png)".toList
            ++ ("**".toList ++ post)) := by
    have e1 : "> **[Image: ".toList = "> **".toList ++ "[Image: ".toList := by decide
    have e2 : ".png)**".toList = ".png)".toList ++ "**".toList := by decide
    rw [e1, e2]
    simp [List.append_assoc]
  show (k ++ ".png".toList) ∈ imageRefs (pre
    ++ ("> **[Image: ".toList ++ k ++ "](images/".toList ++ k ++ ".png)**".toList) ++ post)
  rw [hsh]
  rw [imageRefs_skip (pre ++ "> **".toList) _
    (no_imgpfx_positions hpre (marker_headElem k ("**".toList ++ post)))]
  rw [imageRefs_of_match (matchImageRefAt_marker k ("**".toList ++ post) hk hk1 hk2)]
  exact List.mem_cons_self _ _

theorem C9_image_ref_roundtrip_witness :
    ("img".toList ++ ".png".toList) ∈ (_build_chunk
        ("Intro\n".toList
          ++ ("> **[Image: ".toList ++ "img".toList ++ "](images/".toList
            ++ "img".toList ++ ".png)**".toList)
          ++ "\n> Desc.".toList) ("T").toList ("S").toList).image_refs :=
  C9_image_ref_roundtrip ("img").toList ("Intro\n").toList ("\n> Desc.").toList ("T").toList ("S").toList
    (by decide) (by decide) (by decide) (by decide)

/-- C10.  `image_refs` lists one entry per scanned occurrence, in order
of appearance, without deduplication: a chunk whose content carries the
same key's formatted block twice (with no stray `[Image:` text in
between) lists `k.png` twice, in document order, followed by whatever
the rest of the content contributes. -/
theorem C10_image_refs_ordered_with_duplicates (k pre mid post t h : Str)
    (hk : k ≠ []) (hk1 : ']' ∉ k) (hk2 : ')' ∉ k)
    (hpre : containsSub (pre ++ "> **".toList) ("[Image:").toList = false)
    (hmid : containsSub ("**".toList ++ mid ++ "> **".toList) ("[Image:").toList = false) :
    (_build_chunk
        (pre ++ ("> **[Image: ".toList ++ k ++ "](images/".toList ++ k ++ ".png)**".toList)
          ++ mid
          ++ ("> **[Image: ".toList ++ k ++ "](images/".toList ++ k ++ ".png)**".toList)
          ++ post) t h).image_refs
      = (k ++ ".png".toList) :: (k ++ ".png".toList)
          :: imageRefs ("**".toList ++ post) := by
  have hsh : pre ++ ("> **[Image: ".toList ++ k ++ "](images/".toList ++ k ++ ".png)**".toList)
        ++ mid
        ++ ("> **[Image: ".toList ++ k ++ "](images/".toList ++ k ++ ".png)**".toList)
        ++ post
      = (pre ++ "> **".toList)
          ++ ("[Image: ".toList ++ k ++ "](images/".toList ++ k ++ ".png)".toList
            ++ (("**".toList ++ mid ++ "> **".toList)
              ++ ("[Image: ".toList ++ k ++ "](images/".toList ++ k ++ ".png)".toList
                ++ ("**".toList ++ post)))) := by
    have e1 : "> **[Image: ".toList = "> **".toList ++ "[Image: ".toList := by decide
    have e2 : ".png)**".toList = ".png)".toList ++ "**".toList := by decide
    rw [e1, e2]
    simp [List.append_assoc]
  show (_build_chunk _ t h).image_refs = _
  show imageRefs (pre
      ++ ("> **[Image: ".toList ++ k ++ "](images/".toList ++ k ++ ".png)**".toList)
      ++ mid
      ++ ("> **[Image: ".toList ++ k ++ "](images/".toList ++ k ++ ".png)**".toList)
      ++ post) = _
  rw [hsh]
  rw [imageRefs_skip (pre ++ "> **".toList) _
    (no_imgpfx_positions hpre (marker_headElem k _))]
  rw [imageRefs_of_match (matchImageRefAt_marker k _ hk hk1 hk2)]
  rw [imageRefs_skip ("**".toList ++ mid ++ "> **".toList) _
    (no_imgpfx_positions hmid (marker_headElem k _))]
  rw [imageRefs_of_match (matchImageRefAt_marker k ("**".toList ++ post) hk hk1 hk2)]

theorem C10_image_refs_ordered_with_duplicates_witness :
    (_build_chunk
        ("A\n".toList
          ++ ("> **[Image: ".toList ++ "img".toList ++ "](images/".toList
            ++ "img".toList ++ ".png)**".toList)
          ++ "\nmiddle\n".toList
          ++ ("> **[Image: ".toList ++ "img".toList ++ "](images/".toList
            ++ "img".toList ++ ".png)**".toList)
          ++ "\nend".toList) ("T").toList ("S").toList).image_refs
      = ("img".toList ++ ".png".toList) :: ("img".toList ++ ".png".toList)
          :: imageRefs ("**".toList ++ "\nend".toList) :=
  C10_image_refs_ordered_with_duplicates ("img").toList ("A\n").toList ("\nmiddle\n").toList
    ("\nend").toList ("T").toList ("S").toList
    (by decide) (by decide) (by decide) (by decide) (by decide)

/- ---------------------------------------------------------------------
C4 — extract_image_map and anchorless images
--------------------------------------------------------------------- -/

/-- C4 as stated is false: when no anchor text is found the code omits
the record entirely instead of emitting one with an empty anchor.  In
`htmlDocNoAnchor` there is exactly one image with a non-empty source
reference (stem `pic`), yet the image map is empty. -/
theorem C4_counterexample :
    imgStems htmlDocNoAnchor = ["pic".toList]
      ∧ extract_image_map htmlDocNoAnchor = [] :=
  ⟨by decide, by decide⟩

lemma filterMap_sublist {α β : Type} {f g : α → Option β}
    (h : ∀ a b, f a = some b → g a = some b) (l : List α) :
    List.Sublist (l.filterMap f) (l.filterMap g) := by
  induction l with
  | nil => simp
  | cons a l ih =>
    cases hf : f a with
    | some b =>
      have hg := h a b hf
      simp only [List.filterMap_cons, hf, hg]
      exact List.Sublist.cons₂ b ih
    | none =>
      cases hg : g a with
      | none =>
        simp only [List.filterMap_cons, hf, hg]
        exact ih
      | some b =>
        simp only [List.filterMap_cons, hf, hg]
        exact List.Sublist.cons b ih

/-- C4 (amended).  `extract_image_map` emits one record per image whose
source reference is non-empty and whose anchor search succeeds; every
emitted record has a non-empty anchor (an image with no anchor is
dropped from the map, not emitted with an empty anchor), and the
emitted stems form a subsequence — in document order — of the stems of
all images with a non-empty source reference. -/
theorem C4_image_map_omits_anchorless (doc : Node) :
    (∀ p, p ∈ extract_image_map doc → p.1 ≠ [])
    ∧ List.Sublist ((extract_image_map doc).map Prod.snd) (imgStems doc) := by
  constructor
  · intro p hp
    unfold extract_image_map at hp
    rw [List.mem_filterMap] at hp
    obtain ⟨a, _, ha⟩ := hp
    by_cases h1 : attrOf a.1 ("src").toList = []
    · rw [if_pos h1] at ha; cases ha
    · rw [if_neg h1] at ha
      by_cases h2 : _find_preceding_text a.2 ≠ []
      · rw [if_pos h2] at ha
        cases ha
        exact h2
      · rw [if_neg h2] at ha; cases ha
  · unfold extract_image_map imgStems
    rw [List.map_filterMap]
    apply filterMap_sublist
    intro a b hab
    by_cases h1 : attrOf a.1 ("src").toList = []
    · rw [if_pos h1] at hab; cases hab
    · rw [if_neg h1] at hab
      rw [if_neg h1]
      by_cases h2 : _find_preceding_text a.2 ≠ []
      · rw [if_pos h2] at hab
        simp only [Option.map_some'] at hab
        exact hab
      · rw [if_neg h2] at hab; cases hab

theorem C4_image_map_omits_anchorless_witness :
    extract_image_map htmlDocAnchored
        = [("some long text here ok".toList, "shot".toList)]
    ∧ ("some long text here ok".toList, "shot".toList).1 ≠ []
    ∧ List.Sublist ((extract_image_map htmlDocAnchored).map Prod.snd)
        (imgStems htmlDocAnchored) :=
  ⟨by decide,
   (C4_image_map_omits_anchorless htmlDocAnchored).1 _ (by decide),
   (C4_image_map_omits_anchorless htmlDocAnchored).2⟩
